import Mathlib

/-!
Shallow embedding of `CommentScraper.py` (RedditCommentScraper).

The heart of the program is `CommentScraper._retrieve_post_comment`: a
work-list loop over a post's comment forest.  The forest is a Python list
mixing `praw` `Comment` objects and `MoreComments` placeholders; the loop
pops the *last* element (`list.pop()`), emits a row for a `Comment` whose
score strictly exceeds the upvote threshold, resolves a `MoreComments`
placeholder into further nodes which are appended (`list.extend`) to the
end of the work list, and raises on any other object.

We embed the finite-depth forest as a nested inductive type `Node` in
which a placeholder (`Node.more`) carries the list of nodes its
resolution call (`obj.comments().list()`) returns.  A third constructor
`Node.unexpected` stands for any object that is neither a `Comment` nor a
`MoreComments`; it carries the text Python's `type(obj)` would render, so
the error message of the source can be reproduced verbatim.
-/

namespace RedditCommentScraper

/-- One output record: the dict
`{"post": ..., "author": ..., "comment": ..., "upvotes": ...}` that
`_retrieve_post_comment` appends to `self.comments`.  `author` is
nullable (deleted authors), and the sentinel row for a post with no
comments has null author, comment and upvotes. -/
structure Row where
  post : String
  author : Option String
  comment : Option String
  upvotes : Option Int
deriving Repr, DecidableEq

/-- A node of the comment forest (`post.comments.list()` element):
either a materialized `Comment` (author, body, score), a `MoreComments`
placeholder whose resolution yields the carried list of further nodes
(finite depth, as returned by `obj.comments().list()`), or an object of
any other type (`Node.unexpected ty` records `type(obj)` as text). -/
inductive Node where
  | comment (author : Option String) (body : String) (score : Int)
  | more (resolved : List Node)
  | unexpected (ty : String)

mutual

/-- Number of nodes in a forest rooted at one node, placeholders and
their (recursively resolved) yields included. -/
def sizeN : Node → Nat
  | Node.comment _ _ _ => 1
  | Node.more l => 1 + sizeL l
  | Node.unexpected _ => 1

/-- Number of nodes in a list of forests, placeholders included. -/
def sizeL : List Node → Nat
  | [] => 0
  | n :: rest => sizeN n + sizeL rest

end

mutual

/-- Number of true `Comment` nodes reachable from one node. -/
def countCommentsN : Node → Nat
  | Node.comment _ _ _ => 1
  | Node.more l => countCommentsL l
  | Node.unexpected _ => 0

/-- Number of true `Comment` nodes reachable from a node list. -/
def countCommentsL : List Node → Nat
  | [] => 0
  | n :: rest => countCommentsN n + countCommentsL rest

end

mutual

/-- Number of `Comment` nodes reachable from one node whose score
strictly exceeds the threshold `t` (the code's `score > upvote_threshold`). -/
def countQN (t : Int) : Node → Nat
  | Node.comment _ _ s => if t < s then 1 else 0
  | Node.more l => countQL t l
  | Node.unexpected _ => 0

/-- Number of qualifying `Comment` nodes reachable from a node list. -/
def countQL (t : Int) : List Node → Nat
  | [] => 0
  | n :: rest => countQN t n + countQL t rest

end

mutual

/-- Every node reachable from this node is a `Comment` or a placeholder
(no `unexpected` object anywhere). -/
def cleanN : Node → Bool
  | Node.comment _ _ _ => true
  | Node.more l => cleanL l
  | Node.unexpected _ => false

/-- Every node reachable from this list is a `Comment` or a placeholder. -/
def cleanL : List Node → Bool
  | [] => true
  | n :: rest => cleanN n && cleanL rest

end

mutual

/-- Every `Comment` reachable from this node has score strictly above `t`. -/
def allAboveN (t : Int) : Node → Bool
  | Node.comment _ _ s => decide (t < s)
  | Node.more l => allAboveL t l
  | Node.unexpected _ => true

/-- Every `Comment` reachable from this list has score strictly above `t`. -/
def allAboveL (t : Int) : List Node → Bool
  | [] => true
  | n :: rest => allAboveN t n && allAboveL t rest

end

lemma sizeN_pos (n : Node) : 0 < sizeN n := by
  cases n <;> simp [sizeN]

lemma sizeL_append (a b : List Node) : sizeL (a ++ b) = sizeL a + sizeL b := by
  induction a with
  | nil => simp [sizeL]
  | cons n rest ih => simp [sizeL, ih]; omega

lemma countCommentsL_append (a b : List Node) :
    countCommentsL (a ++ b) = countCommentsL a + countCommentsL b := by
  induction a with
  | nil => simp [countCommentsL]
  | cons n rest ih => simp [countCommentsL, ih]; omega

lemma countQL_append (t : Int) (a b : List Node) :
    countQL t (a ++ b) = countQL t a + countQL t b := by
  induction a with
  | nil => simp [countQL]
  | cons n rest ih => simp [countQL, ih]; omega

lemma cleanL_append (a b : List Node) :
    cleanL (a ++ b) = (cleanL a && cleanL b) := by
  induction a with
  | nil => simp [cleanL]
  | cons n rest ih => simp [cleanL, ih, Bool.and_assoc]

lemma allAboveL_append (t : Int) (a b : List Node) :
    allAboveL t (a ++ b) = (allAboveL t a && allAboveL t b) := by
  induction a with
  | nil => simp [allAboveL]
  | cons n rest ih => simp [allAboveL, ih, Bool.and_assoc]

/-- A nonempty list is its `dropLast` followed by its last element. -/
lemma eq_dropLast_concat_of_getLast? {α : Type} :
    ∀ (l : List α) (a : α), l.getLast? = some a → l = l.dropLast ++ [a] := by
  intro l
  induction l with
  | nil => intro a h; simp [List.getLast?] at h
  | cons x rest ih =>
    intro a h
    cases rest with
    | nil => simp [List.getLast?] at h; simp [h, List.dropLast]
    | cons y t =>
      rw [List.getLast?_cons_cons] at h
      have := ih a h
      simp [List.dropLast]
      exact this

/-! ### Text normalizer (`CommentScraper.strip_newlines`) -/

/-- The character class of Python's `\s` regex on ASCII text
(space, tab, newline, carriage return, vertical tab, form feed).
The source applies `re.sub` to `str` comments; we model ASCII text. -/
def isSpaceChar (c : Char) : Bool :=
  c = ' ' || c = '\t' || c = '\n' || c = '\r' || c = '\x0b' || c = '\x0c'

/-- First pass of `strip_newlines`:
`re.sub(r"\n[\n]?", " ", comment)` — scan left to right and replace each
leftmost, greedy, non-overlapping match of one-or-two newlines with a
single space. -/
def subNewlines : List Char → List Char
  | [] => []
  | c :: rest =>
    if c = '\n' then
      match rest with
      | [] => [' ']
      | c2 :: rest2 =>
        if c2 = '\n' then ' ' :: subNewlines rest2
        else ' ' :: c2 :: subNewlines rest2
    else c :: subNewlines rest

lemma dropWhile_length_le {α : Type} (p : α → Bool) (l : List α) :
    (l.dropWhile p).length ≤ l.length := by
  induction l with
  | nil => simp [List.dropWhile]
  | cons c rest ih =>
    rw [List.dropWhile]
    cases p c
    · simp
    · simp
      omega

/-- Second pass of `strip_newlines`:
`re.sub(r"\s+", r" ", comment)` — replace each maximal run of whitespace
characters with a single space. -/
def subWhitespace : List Char → List Char
  | [] => []
  | c :: rest =>
    if isSpaceChar c then ' ' :: subWhitespace (rest.dropWhile isSpaceChar)
    else c :: subWhitespace rest
termination_by l => l.length
decreasing_by
  all_goals simp only [List.length_cons]
  · exact Nat.lt_succ_of_le (dropWhile_length_le _ _)
  · omega

/-- Function `CommentScraper.strip_newlines`: the two regex substitutions in order. -/
def strip_newlines (comment : String) : String :=
  String.mk (subWhitespace (subNewlines comment.data))

/-! ### The work-list flattener (`CommentScraper._retrieve_post_comment`) -/

/-- The row appended for a qualifying comment: post title, author, the
(optionally normalized) body, and the score. -/
def commentRow (title : String) (strip : Bool) (a : Option String) (b : String) (s : Int) : Row :=
  Row.mk title a (some (if strip then strip_newlines b else b)) (some s)

/-- The sentinel row appended for a post whose comment list is empty. -/
def sentinelRow (title : String) : Row :=
  Row.mk title none none none

/-- The `while comment_list:` loop of `_retrieve_post_comment`.
`comment_list.pop()` removes the *last* element; a qualifying `Comment`
appends a row to the accumulator `acc` (the tail of `self.comments`); a
`MoreComments` placeholder has its resolved nodes appended to the end of
the work list (`comment_list.extend(obj_list)`); any other object raises
`Exception("Unexpected object found in comment list."
"Found object of type ...")` — note the two adjacent string literals of
the source concatenate without a separating space. -/
def flattenLoop (title : String) (t : Int) (strip : Bool)
    (ws : List Node) (acc : List Row) : Except String (List Row) :=
  match h : ws.getLast? with
  | none => Except.ok acc
  | some (Node.comment a b s) =>
      flattenLoop title t strip ws.dropLast
        (if t < s then acc ++ [commentRow title strip a b s] else acc)
  | some (Node.more l) =>
      flattenLoop title t strip (ws.dropLast ++ l) acc
  | some (Node.unexpected ty) =>
      Except.error ("Unexpected object found in comment list." ++
        "Found object of type " ++ ty)
termination_by sizeL ws
decreasing_by
  · have hs : sizeL ws.dropLast + sizeN (Node.comment a b s) = sizeL ws := by
      conv_rhs => rw [eq_dropLast_concat_of_getLast? ws _ h]
      rw [sizeL_append]
      simp [sizeL]
    simp only [sizeN] at hs
    omega
  · have hs : sizeL ws.dropLast + sizeN (Node.more l) = sizeL ws := by
      conv_rhs => rw [eq_dropLast_concat_of_getLast? ws _ h]
      rw [sizeL_append]
      simp [sizeL]
    rw [sizeL_append]
    simp only [sizeN] at hs
    omega

lemma flattenLoop_nil (title : String) (t : Int) (strip : Bool) (acc : List Row) :
    flattenLoop title t strip [] acc = Except.ok acc := by
  rw [flattenLoop]
  rfl

/-- One iteration of the work-list loop, stated on the last element of the
list (the element `comment_list.pop()` removes). -/
lemma flattenLoop_concat (title : String) (t : Int) (strip : Bool)
    (ws : List Node) (n : Node) (acc : List Row) :
    flattenLoop title t strip (ws ++ [n]) acc =
      match n with
      | Node.comment a b s =>
          flattenLoop title t strip ws
            (if t < s then acc ++ [commentRow title strip a b s] else acc)
      | Node.more l => flattenLoop title t strip (ws ++ l) acc
      | Node.unexpected ty =>
          Except.error ("Unexpected object found in comment list." ++
            "Found object of type " ++ ty) := by
  rw [flattenLoop]
  split
  · rename_i heq
    rw [List.getLast?_concat] at heq
    exact Option.noConfusion heq
  all_goals
    rename_i heq
    rw [List.getLast?_concat] at heq
    obtain rfl := Option.some.inj heq
    simp [List.dropLast_concat]

/-- A post as the flattener sees it: its title and the list
`post.comments.list()` returns (`praw` presents the comment forest of a
submission as this flat list of `Comment` and `MoreComments` objects). -/
structure Post where
  title : String
  commentList : List Node

/-- Model of `_retrieve_post_comment post ...` acting on the tail `comments` of
`self.comments`: an empty comment list appends the sentinel row, otherwise
the work-list loop runs on the full list. -/
def retrievePostComment (post : Post) (t : Int) (strip : Bool)
    (comments : List Row) : Except String (List Row) :=
  if post.commentList.isEmpty then
    Except.ok (comments ++ [sentinelRow post.title])
  else
    flattenLoop post.title t strip post.commentList comments

/-- Main behaviour of the loop on clean forests (no unexpected object
anywhere): it returns normally, only ever appends to the accumulator, and
appends exactly one row per reachable `Comment` whose score beats the
threshold. -/
lemma flattenLoop_ok (title : String) (t : Int) (strip : Bool) :
    ∀ (k : Nat) (ws : List Node), sizeL ws ≤ k → ∀ (acc : List Row),
      cleanL ws = true →
      ∃ new, flattenLoop title t strip ws acc = Except.ok (acc ++ new) ∧
        new.length = countQL t ws := by
  intro k
  induction k with
  | zero =>
    intro ws hsz acc _
    have hnil : ws = [] := by
      cases ws with
      | nil => rfl
      | cons n rest =>
        exfalso
        have := sizeN_pos n
        simp [sizeL] at hsz
        omega
    subst hnil
    exact ⟨[], by simp [flattenLoop_nil, countQL]⟩
  | succ k ih =>
    intro ws hsz acc hclean
    rcases List.eq_nil_or_concat ws with hnil | ⟨ws', n, rfl⟩
    · subst hnil
      exact ⟨[], by simp [flattenLoop_nil, countQL]⟩
    · simp only [List.concat_eq_append] at hsz hclean ⊢
      have hszc : sizeL ws' + sizeN n = sizeL (ws' ++ [n]) := by
        rw [sizeL_append]; simp [sizeL]
      have hcl : cleanL ws' = true ∧ cleanN n = true := by
        have := hclean
        rw [cleanL_append] at this
        simp [cleanL] at this
        exact ⟨this.1, this.2⟩
      rw [flattenLoop_concat]
      cases n with
      | comment a b s =>
        have hra := ih ws' (by simp [sizeN] at hszc; omega)
          (if t < s then acc ++ [commentRow title strip a b s] else acc) hcl.1
        obtain ⟨new, hrun, hlen⟩ := hra
        by_cases hts : t < s
        · simp only [if_pos hts] at hrun ⊢
          refine ⟨commentRow title strip a b s :: new, ?_, ?_⟩
          · rw [hrun]
            simp
          · simp [hlen, countQL_append, countQL, countQN, hts]
        · simp only [if_neg hts] at hrun ⊢
          refine ⟨new, hrun, ?_⟩
          simp [hlen, countQL_append, countQL, countQN, hts]
      | more l =>
        have hcll : cleanL (ws' ++ l) = true := by
          rw [cleanL_append]
          simp [hcl.1]
          have := hcl.2
          simpa [cleanN] using this
        have hra := ih (ws' ++ l)
          (by rw [sizeL_append]; simp [sizeN] at hszc; omega) acc hcll
        obtain ⟨new, hrun, hlen⟩ := hra
        refine ⟨new, hrun, ?_⟩
        rw [hlen, countQL_append, countQL_append, countQL, countQL, countQN]
        omega
      | unexpected ty =>
        exfalso
        have := hcl.2
        simp [cleanN] at this

/-- Evaluating the loop on a single comment (shared by several claims). -/
lemma flattenLoop_one_comment (title : String) (t : Int) (strip : Bool)
    (a : Option String) (b : String) (s : Int) (acc : List Row) :
    flattenLoop title t strip [Node.comment a b s] acc =
      Except.ok (acc ++ if t < s then [commentRow title strip a b s] else []) := by
  have h := flattenLoop_concat title t strip [] (Node.comment a b s) acc
  simp only [List.nil_append] at h
  rw [h]
  by_cases hts : t < s
  · simp [hts, flattenLoop_nil]
  · simp [hts, flattenLoop_nil]

/-! ### Order-independent view of the work-list loop

The spec leaves the removal order unspecified ("order is
unspecified/implementation-defined").  `Flat` is one iteration of the
loop in which the removed node may sit anywhere in the work list; the
resolved yield of a placeholder is still appended at the end, as
`comment_list.extend` does.  The code's own pop-from-the-end behaviour is
the instance with an empty suffix. -/

/-- One loop iteration on a state (work list, rows emitted so far),
removing an arbitrary node. -/
inductive Flat (title : String) (t : Int) (strip : Bool) :
    List Node × List Row → List Node × List Row → Prop
  | keep (pre post : List Node) (rows : List Row)
      (a : Option String) (b : String) (s : Int) (h : t < s) :
      Flat title t strip (pre ++ Node.comment a b s :: post, rows)
        (pre ++ post, rows ++ [commentRow title strip a b s])
  | skip (pre post : List Node) (rows : List Row)
      (a : Option String) (b : String) (s : Int) (h : ¬ t < s) :
      Flat title t strip (pre ++ Node.comment a b s :: post, rows)
        (pre ++ post, rows)
  | resolve (pre post : List Node) (rows : List Row) (l : List Node) :
      Flat title t strip (pre ++ Node.more l :: post, rows)
        (pre ++ post ++ l, rows)

/-- Runs of exactly `k` loop iterations. -/
inductive FlatN (title : String) (t : Int) (strip : Bool) :
    Nat → List Node × List Row → List Node × List Row → Prop
  | refl (p : List Node × List Row) : FlatN title t strip 0 p p
  | head (k : Nat) (p q r : List Node × List Row)
      (h1 : Flat title t strip p q) (h2 : FlatN title t strip k q r) :
      FlatN title t strip (k + 1) p r

/-- Each loop iteration removes exactly one node from the total size of
the work list (a resolved placeholder is replaced by its yield, which it
counted). -/
lemma Flat.size_succ {title : String} {t : Int} {strip : Bool}
    {p q : List Node × List Row} (h : Flat title t strip p q) :
    sizeL q.1 + 1 = sizeL p.1 := by
  cases h with
  | keep pre post rows a b s h =>
    simp [sizeL_append, sizeL, sizeN]
    omega
  | skip pre post rows a b s h =>
    simp [sizeL_append, sizeL, sizeN]
    omega
  | resolve pre post rows l =>
    simp [sizeL_append, sizeL, sizeN]
    omega

/-- Each loop iteration preserves emitted-so-far plus still-qualifying. -/
lemma Flat.count_inv {title : String} {t : Int} {strip : Bool}
    {p q : List Node × List Row} (h : Flat title t strip p q) :
    q.2.length + countQL t q.1 = p.2.length + countQL t p.1 := by
  cases h with
  | keep pre post rows a b s h =>
    simp [countQL_append, countQL, countQN, h]
    omega
  | skip pre post rows a b s h =>
    simp [countQL_append, countQL, countQN, h]
  | resolve pre post rows l =>
    simp [countQL_append, countQL, countQN]
    omega

/-- Any completed run of the loop has emitted one row per qualifying
comment of the initial work list. -/
lemma run_count {title : String} {t : Int} {strip : Bool} :
    ∀ (p : List Node × List Row) (rows : List Row),
      Relation.ReflTransGen (Flat title t strip) p ([], rows) →
      rows.length = p.2.length + countQL t p.1 := by
  intro p rows h
  induction h using Relation.ReflTransGen.head_induction_on with
  | refl => simp [countQL]
  | head hstep htail ih =>
    rename_i a c
    rw [ih, Flat.count_inv hstep]

/-- Any completed run of `k` iterations handles each node of the initial
work list (descendants of placeholders included) exactly once: `k` is the
total node count. -/
lemma flatN_count {title : String} {t : Int} {strip : Bool} :
    ∀ (k : Nat) (p : List Node × List Row) (rows : List Row),
      FlatN title t strip k p ([], rows) → k = sizeL p.1 := by
  intro k
  induction k with
  | zero =>
    intro p rows h
    cases h
    simp [sizeL]
  | succ k ih =>
    intro p rows h
    cases h with
    | head _ _ q _ h1 h2 =>
      have := ih q rows h2
      have hs := Flat.size_succ h1
      omega

/-- There is no infinite run of the loop: every iteration shrinks the
total node count. -/
lemma no_infinite_run (title : String) (t : Int) (strip : Bool) :
    ¬ ∃ f : Nat → List Node × List Row,
        ∀ k, Flat title t strip (f k) (f (k + 1)) := by
  rintro ⟨f, hf⟩
  have hdec : ∀ k, sizeL (f (k + 1)).1 < sizeL (f k).1 := by
    intro k
    have := Flat.size_succ (hf k)
    omega
  have hbound : ∀ k, sizeL (f k).1 + k ≤ sizeL (f 0).1 := by
    intro k
    induction k with
    | zero => omega
    | succ k ih =>
      have := hdec k
      omega
  have := hbound (sizeL (f 0).1 + 1)
  omega

/-- When every comment clears the threshold, the qualifying count is the
full comment count. -/
lemma countQL_eq_countCommentsL (t : Int) :
    ∀ (k : Nat) (l : List Node), sizeL l ≤ k → allAboveL t l = true →
      countQL t l = countCommentsL l := by
  intro k
  induction k with
  | zero =>
    intro l hsz _
    cases l with
    | nil => simp [countQL, countCommentsL]
    | cons n rest =>
      exfalso
      have := sizeN_pos n
      simp [sizeL] at hsz
      omega
  | succ k ih =>
    intro l hsz hall
    cases l with
    | nil => simp [countQL, countCommentsL]
    | cons n rest =>
      simp only [allAboveL, Bool.and_eq_true] at hall
      simp only [countQL, countCommentsL]
      have hrest : countQL t rest = countCommentsL rest := by
        apply ih rest ?_ hall.2
        have := sizeN_pos n
        simp [sizeL] at hsz
        omega
      cases n with
      | comment a b s =>
        have : (t < s) := by simpa [allAboveN] using hall.1
        simp [countQN, countCommentsN, this, hrest]
      | more l2 =>
        have hl2 : countQL t l2 = countCommentsL l2 := by
          apply ih l2 ?_ (by simpa [allAboveN] using hall.1)
          simp [sizeL, sizeN] at hsz
          omega
        simp [countQN, countCommentsN, hl2, hrest]
      | unexpected ty =>
        simp [countQN, countCommentsN, hrest]

/-! ### The loop against an arbitrary resolution behaviour

`Node` can only describe placeholders whose resolution is a finite-depth
tree.  To examine the loop against a `MoreComments` object whose
`comments()` call (incorrectly) re-yields the object itself, we model
placeholders as opaque tokens and resolution as a function `env` from
tokens to node lists, and count loop iterations with fuel: `none` means
the loop is still running after the given number of iterations. -/

/-- A work-list entry with an opaque placeholder token. -/
inductive TNode where
  | comment (author : Option String) (body : String) (score : Int)
  | more (tok : Nat)

/-- The same `while comment_list:` loop as `flattenLoop`, with
placeholder resolution delegated to `env` and one unit of fuel consumed
per iteration. -/
def flattenFuel (env : Nat → List TNode) (title : String) (t : Int) (strip : Bool) :
    Nat → List TNode → List Row → Option (Except String (List Row))
  | _, [], acc => some (Except.ok acc)
  | 0, _ :: _, _ => none
  | fuel + 1, w :: ws, acc =>
    match (w :: ws).getLast? with
    | none => some (Except.ok acc)
    | some (TNode.comment a b s) =>
        flattenFuel env title t strip fuel (w :: ws).dropLast
          (if t < s then acc ++ [commentRow title strip a b s] else acc)
    | some (TNode.more tok) =>
        flattenFuel env title t strip fuel ((w :: ws).dropLast ++ env tok) acc

/-- A resolution behaviour in which the placeholder token `0` re-yields
itself. -/
def cycEnv : Nat → List TNode := fun _ => [TNode.more 0]

lemma flattenFuel_cyc (fuel : Nat) :
    flattenFuel cycEnv "P" 0 true fuel [TNode.more 0] [] = none := by
  induction fuel with
  | zero => rfl
  | succ fuel ih => exact ih

/-! ### Facts about the normalizer -/

lemma subNewlines_nil : subNewlines [] = [] := rfl

lemma subNewlines_nl_nil : subNewlines ['\n'] = [' '] := rfl

lemma subNewlines_nl_nl (r2 : List Char) :
    subNewlines ('\n' :: '\n' :: r2) = ' ' :: subNewlines r2 := rfl

lemma subNewlines_nl_other (c2 : Char) (h : ¬ c2 = '\n') (r2 : List Char) :
    subNewlines ('\n' :: c2 :: r2) = ' ' :: c2 :: subNewlines r2 := by
  have h0 : subNewlines ('\n' :: c2 :: r2) =
      if c2 = '\n' then ' ' :: subNewlines r2
      else ' ' :: c2 :: subNewlines r2 := rfl
  rw [h0, if_neg h]

lemma subNewlines_other (c : Char) (h : ¬ c = '\n') (rest : List Char) :
    subNewlines (c :: rest) = c :: subNewlines rest := by
  cases rest with
  | nil =>
    have h0 : subNewlines [c] =
        if c = '\n' then [' '] else c :: subNewlines [] := rfl
    rw [h0, if_neg h]
  | cons c2 r2 =>
    have h0 : subNewlines (c :: c2 :: r2) =
        if c = '\n' then
          (if c2 = '\n' then ' ' :: subNewlines r2
           else ' ' :: c2 :: subNewlines r2)
        else c :: subNewlines (c2 :: r2) := rfl
    rw [h0, if_neg h]

lemma subWhitespace_nil : subWhitespace [] = [] := by
  rw [subWhitespace]

lemma subWhitespace_cons_ws (c : Char) (h : isSpaceChar c = true) (rest : List Char) :
    subWhitespace (c :: rest) =
      ' ' :: subWhitespace (rest.dropWhile isSpaceChar) := by
  rw [subWhitespace]
  simp [h]

lemma subWhitespace_cons_not (c : Char) (h : isSpaceChar c = false) (rest : List Char) :
    subWhitespace (c :: rest) = c :: subWhitespace rest := by
  rw [subWhitespace]
  simp [h]

lemma isSpaceChar_nl : isSpaceChar '\n' = true := rfl

lemma isSpaceChar_sp : isSpaceChar ' ' = true := rfl

/-- The newline pre-pass commutes with stripping a leading whitespace
run: it maps whitespace to whitespace one-for-one or two-to-one and never
touches other characters. -/
lemma dropWhile_subNewlines :
    ∀ (k : Nat) (l : List Char), l.length ≤ k →
      (subNewlines l).dropWhile isSpaceChar =
        subNewlines (l.dropWhile isSpaceChar) := by
  intro k
  induction k with
  | zero =>
    intro l hsz
    have : l = [] := by
      cases l with
      | nil => rfl
      | cons c rest => simp at hsz
    subst this
    simp [subNewlines_nil]
  | succ k ih =>
    intro l hsz
    cases l with
    | nil => simp [subNewlines_nil]
    | cons c rest =>
      simp only [List.length_cons] at hsz
      by_cases hc : c = '\n'
      · subst hc
        cases rest with
        | nil =>
          rw [subNewlines_nl_nil]
          simp [List.dropWhile_cons, isSpaceChar_sp, isSpaceChar_nl, subNewlines_nil]
        | cons c2 r2 =>
          simp only [List.length_cons] at hsz
          by_cases hc2 : c2 = '\n'
          · subst hc2
            rw [subNewlines_nl_nl]
            simp only [List.dropWhile_cons, isSpaceChar_sp, isSpaceChar_nl, eq_self_iff_true, if_true]
            exact ih r2 (by omega)
          · rw [subNewlines_nl_other c2 hc2]
            by_cases hws : isSpaceChar c2 = true
            · simp only [List.dropWhile_cons, isSpaceChar_sp, isSpaceChar_nl, hws,
                eq_self_iff_true, if_true]
              exact ih r2 (by omega)
            · have hws' : isSpaceChar c2 = false := by
                cases h : isSpaceChar c2
                · rfl
                · exact absurd h hws
              simp [List.dropWhile_cons, isSpaceChar_sp, isSpaceChar_nl, hws']
              rw [subNewlines_other c2 hc2]
      · rw [subNewlines_other c hc]
        by_cases hws : isSpaceChar c = true
        · simp only [List.dropWhile_cons, hws, eq_self_iff_true, if_true]
          exact ih rest (by omega)
        · have hws' : isSpaceChar c = false := by
            cases h : isSpaceChar c
            · rfl
            · exact absurd h hws
          simp [List.dropWhile_cons, hws']
          rw [subNewlines_other c hc]

/-- Net effect of the two passes: running the whitespace collapse after
the newline pre-pass gives the same text as running the whitespace
collapse alone. -/
lemma subWhitespace_subNewlines :
    ∀ (k : Nat) (l : List Char), l.length ≤ k →
      subWhitespace (subNewlines l) = subWhitespace l := by
  intro k
  induction k with
  | zero =>
    intro l hsz
    have : l = [] := by
      cases l with
      | nil => rfl
      | cons c rest => simp at hsz
    subst this
    rfl
  | succ k ih =>
    intro l hsz
    cases l with
    | nil => rfl
    | cons c rest =>
      simp only [List.length_cons] at hsz
      by_cases hc : c = '\n'
      · subst hc
        cases rest with
        | nil =>
          rw [subNewlines_nl_nil]
          rw [subWhitespace_cons_ws ' ' isSpaceChar_sp]
          rw [subWhitespace_cons_ws '\n' isSpaceChar_nl]
        | cons c2 r2 =>
          simp only [List.length_cons] at hsz
          by_cases hc2 : c2 = '\n'
          · subst hc2
            rw [subNewlines_nl_nl]
            rw [subWhitespace_cons_ws ' ' isSpaceChar_sp]
            rw [subWhitespace_cons_ws '\n' isSpaceChar_nl]
            simp only [List.dropWhile_cons, isSpaceChar_nl, eq_self_iff_true, if_true]
            rw [dropWhile_subNewlines r2.length r2 le_rfl]
            have hlen := dropWhile_length_le isSpaceChar r2
            rw [ih (r2.dropWhile isSpaceChar) (by omega)]
          · rw [subNewlines_nl_other c2 hc2]
            rw [subWhitespace_cons_ws ' ' isSpaceChar_sp]
            rw [subWhitespace_cons_ws '\n' isSpaceChar_nl]
            by_cases hws : isSpaceChar c2 = true
            · simp only [List.dropWhile_cons, hws, eq_self_iff_true, if_true]
              rw [dropWhile_subNewlines r2.length r2 le_rfl]
              have hlen := dropWhile_length_le isSpaceChar r2
              rw [ih (r2.dropWhile isSpaceChar) (by omega)]
            · have hws' : isSpaceChar c2 = false := by
                cases h : isSpaceChar c2
                · rfl
                · exact absurd h hws
              simp only [List.dropWhile_cons, hws', Bool.false_eq_true, if_false]
              rw [subWhitespace_cons_not c2 hws']
              rw [subWhitespace_cons_not c2 hws']
              rw [ih r2 (by omega)]
      · by_cases hws : isSpaceChar c = true
        · rw [subNewlines_other c hc]
          rw [subWhitespace_cons_ws c hws]
          rw [subWhitespace_cons_ws c hws]
          rw [dropWhile_subNewlines rest.length rest le_rfl]
          have hlen := dropWhile_length_le isSpaceChar rest
          rw [ih (rest.dropWhile isSpaceChar) (by omega)]
        · have hws' : isSpaceChar c = false := by
            cases h : isSpaceChar c
            · rfl
            · exact absurd h hws
          rw [subNewlines_other c hc]
          rw [subWhitespace_cons_not c hws']
          rw [subWhitespace_cons_not c hws']
          rw [ih rest (by omega)]

/-- Written from the spec's words, for comparison with the composition
of the two source passes: "any run of whitespace/newline characters in
the input collapses to exactly one space in the output" — each maximal
run of whitespace characters becomes a single space, every other
character is kept. -/
def collapseRunsList : List Char → List Char
  | [] => []
  | c :: rest =>
    if isSpaceChar c then ' ' :: collapseRunsList (rest.dropWhile isSpaceChar)
    else c :: collapseRunsList rest
termination_by l => l.length
decreasing_by
  all_goals simp only [List.length_cons]
  · exact Nat.lt_succ_of_le (dropWhile_length_le _ _)
  · omega

/-- The spec-side collapse on strings. -/
def collapseRuns (s : String) : String :=
  String.mk (collapseRunsList s.data)

lemma collapseRunsList_eq_subWhitespace :
    ∀ (k : Nat) (l : List Char), l.length ≤ k →
      collapseRunsList l = subWhitespace l := by
  intro k
  induction k with
  | zero =>
    intro l hsz
    have : l = [] := by
      cases l with
      | nil => rfl
      | cons c rest => simp at hsz
    subst this
    rw [collapseRunsList, subWhitespace]
  | succ k ih =>
    intro l hsz
    cases l with
    | nil => rw [collapseRunsList, subWhitespace]
    | cons c rest =>
      simp only [List.length_cons] at hsz
      rw [collapseRunsList, subWhitespace]
      by_cases hws : isSpaceChar c = true
      · simp only [hws, if_pos]
        have hlen := dropWhile_length_le isSpaceChar rest
        rw [ih (rest.dropWhile isSpaceChar) (by omega)]
      · simp only [hws]
        simp only [Bool.false_eq_true, if_neg, not_false_iff]
        rw [ih rest (by omega)]

/-! ### Saving (`_save_comments`) and the pre-existence check of
`scrape_subreddit`

The filesystem is modelled as the set of existing regular files (with
their contents, a row list) and the set of existing directories, both as
association/plain lists over path strings.  Paths are strings with `/` as
separator, mirroring the `os.path.split` / `os.makedirs` calls of the
source on relative POSIX paths. -/

/-- Split a path at `/` boundaries into its segments
(`"a/b/c" ↦ ["a", "b", "c"]`, `"c" ↦ ["c"]`). -/
def splitOnSlash : List Char → List (List Char)
  | [] => [[]]
  | c :: rest =>
    if c = '/' then [] :: splitOnSlash rest
    else
      match splitOnSlash rest with
      | [] => [[c]]
      | seg :: segs => (c :: seg) :: segs

/-- Rejoin segments with `/`. -/
def joinSlash : List (List Char) → List Char
  | [] => []
  | s :: rest =>
    match rest with
    | [] => s
    | _ :: _ => s ++ '/' :: joinSlash rest

lemma splitOnSlash_ne_nil (l : List Char) : splitOnSlash l ≠ [] := by
  cases l with
  | nil => simp [splitOnSlash]
  | cons c rest =>
    rw [splitOnSlash]
    by_cases hc : c = '/'
    · simp [hc]
    · simp only [hc, if_neg, not_false_iff]
      cases h : splitOnSlash rest <;> simp

lemma joinSlash_splitOnSlash (l : List Char) :
    joinSlash (splitOnSlash l) = l := by
  induction l with
  | nil => rfl
  | cons c rest ih =>
    rw [splitOnSlash]
    by_cases hc : c = '/'
    · subst hc
      simp only [eq_self_iff_true, if_true, reduceIte]
      cases h : splitOnSlash rest with
      | nil => exact absurd h (splitOnSlash_ne_nil rest)
      | cons seg segs =>
        rw [h] at ih
        have h1 : joinSlash ([] :: seg :: segs) = [] ++ '/' :: joinSlash (seg :: segs) := rfl
        rw [h1, ih]
        rfl
    · simp only [hc, if_neg, not_false_iff]
      cases h : splitOnSlash rest with
      | nil => exact absurd h (splitOnSlash_ne_nil rest)
      | cons seg segs =>
        rw [h] at ih
        cases segs with
        | nil =>
          have h1 : joinSlash [c :: seg] = c :: seg := rfl
          have h2 : joinSlash [seg] = seg := rfl
          rw [h2] at ih
          rw [h1, ih]
        | cons s2 ss =>
          have h1 : joinSlash ((c :: seg) :: s2 :: ss) =
              (c :: seg) ++ '/' :: joinSlash (s2 :: ss) := rfl
          have h2 : joinSlash (seg :: s2 :: ss) =
              seg ++ '/' :: joinSlash (s2 :: ss) := rfl
          rw [h2] at ih
          rw [h1, List.cons_append, ih]

/-- The directory part of a path, as `os.path.split(path)[0]` computes it
for relative POSIX paths: everything before the last `/`, empty when the
path has no `/`. -/
def splitDir (p : String) : String :=
  let parts := splitOnSlash p.data
  if parts.length ≤ 1 then "" else String.mk (joinSlash parts.dropLast)

/-- All the `/`-prefixes of a directory path, leaf included — the chain
of directories `os.makedirs` creates. -/
def dirPrefixes (d : String) : List String :=
  let parts := splitOnSlash d.data
  (List.range parts.length).map (fun i => String.mk (joinSlash (parts.take (i + 1))))

/-- Filesystem state: existing files (path, contents as rows) and
existing directories. -/
structure FS where
  files : List (String × List Row)
  dirs : List String
deriving Repr, DecidableEq

/-- Model of `os.path.exists`: true for an existing file or directory. -/
def pathExists (fs : FS) (p : String) : Bool :=
  fs.files.any (fun q => q.1 == p) || fs.dirs.contains p

/-- The `try: os.makedirs(fdir) except FileExistsError: pass` of
`_save_comments`: if the leaf directory already exists the error is
swallowed and nothing changes; otherwise the whole prefix chain is
created. -/
def makedirs (fs : FS) (d : String) : FS :=
  if fs.dirs.contains d then fs
  else FS.mk fs.files (fs.dirs ++ dirPrefixes d)

/-- Model of `open(path, 'w')` followed by writing all rows: creates the file or
truncates an existing one. -/
def writeOpen (fs : FS) (p : String) (rows : List Row) : FS :=
  FS.mk ((p, rows) :: fs.files.filter (fun q => q.1 ≠ p)) fs.dirs

/-- Model of `_save_comments(path)`: pick the default `<subreddit>_<timestamp>.csv`
name when no path is given, create the directory part of the path if one
is present, then write.  With an empty row list the source crashes on
`self.comments[0]` (IndexError) after having opened the file; the error
case of this model only reports the exception. -/
def saveComments (fs : FS) (sub now : String) (path : Option String)
    (rows : List Row) : Except String FS :=
  let p := path.getD (sub ++ "_" ++ now ++ ".csv")
  let fdir := splitDir p
  let fs1 := if fdir ≠ "" then makedirs fs fdir else fs
  if rows.isEmpty then Except.error "IndexError: list index out of range"
  else Except.ok (writeOpen fs1 p rows)

/-- The write-relevant slice of `scrape_subreddit`: the guard
`if path is not None and os.path.exists(path): raise FileExistsError`
runs first, then (after fetching, which touches no files) the rows are
saved.  When `path` is `None` no pre-existence check happens at all. -/
def scrapeSavePhase (fs : FS) (sub now : String) (path : Option String)
    (rows : List Row) : Except String FS :=
  match path with
  | some p =>
    if pathExists fs p then Except.error "Passed path already exists."
    else saveComments fs sub now (some p) rows
  | none => saveComments fs sub now none rows

lemma mem_dirPrefixes_self (d : String) : d ∈ dirPrefixes d := by
  unfold dirPrefixes
  have hne := splitOnSlash_ne_nil d.data
  have hlen : 0 < (splitOnSlash d.data).length := List.length_pos.mpr hne
  refine List.mem_map.mpr ⟨(splitOnSlash d.data).length - 1, ?_, ?_⟩
  · exact List.mem_range.mpr (by omega)
  · have h1 : (splitOnSlash d.data).length - 1 + 1 = (splitOnSlash d.data).length := by
      omega
    rw [h1, List.take_length, joinSlash_splitOnSlash]

lemma makedirs_contains_self (fs : FS) (d : String) :
    (makedirs fs d).dirs.contains d = true := by
  unfold makedirs
  by_cases h : fs.dirs.contains d = true
  · rw [if_pos h]
    exact h
  · have h2 : fs.dirs.contains d = false := by
      cases hc : fs.dirs.contains d
      · rfl
      · exact absurd hc h
    simp only [h2, Bool.false_eq_true, if_false]
    simp only [List.contains, List.elem_eq_mem, decide_eq_true_eq, List.mem_append]
    exact Or.inr (mem_dirPrefixes_self d)

/-! ### Authentication (`_authenticate`) and what follows it -/

/-- The three environment entries `load_dotenv` provides;
`none` models an unset variable (a `KeyError` on `os.environ[...]`). -/
structure Env where
  client_id : Option String
  client_secret : Option String
  user_agent : Option String

/-- The authenticated client `praw.Reddit(...)` constructs (no network
traffic happens at construction time). -/
structure Reddit where
  client_id : String
  client_secret : String
  user_agent : String

/-- The lines `_authenticate` prints on the failure path, after the
unconditional "Authenticating credentials..." banner. -/
def authFailLines : List String :=
  ["Authentication failed.",
   "Could not find .env file containing a client_id, client_secret, and user_agent."]

/-- Model of `_authenticate`: reads the three variables inside a
`try/except KeyError`; on success stores the client, on a missing
variable prints two messages and *returns normally*, leaving
`self.reddit` as `None`.  Result: (printed lines, stored client). -/
def authenticate (env : Env) : List String × Option Reddit :=
  match env.client_id, env.client_secret, env.user_agent with
  | some i, some s, some u =>
    (["Authenticating credentials...", "Authentication success."],
     some (Reddit.mk i s u))
  | _, _, _ => ("Authenticating credentials..." :: authFailLines, none)

/-- The first statement of `_get_posts` that touches the client:
`self.reddit.subreddit(subreddit)`.  With `self.reddit = None` this
raises an uncaught `AttributeError` (a stack-trace crash); with a real
client the posts come from the network collaborator `fetch`. -/
def getPosts (reddit : Option Reddit) (fetch : Reddit → String → List Post)
    (sub : String) : Except String (List Post) :=
  match reddit with
  | none =>
    Except.error "AttributeError: 'NoneType' object has no attribute 'subreddit'"
  | some r => Except.ok (fetch r sub)

/-! ### The collector (`_retrieve_post_comments`) -/

/-- Model of `_retrieve_post_comments`: sequential mode folds
`_retrieve_post_comment` over the posts, threading `self.comments`.
Multiprocessing mode hands `self._retrieve_post_comment` to
`Pool.starmap`: each worker process operates on a *pickled copy* of
`self`, so its append goes to the copy's list and the method's `None`
results are discarded — the parent's `self.comments` is unchanged (a
worker exception is re-raised in the parent). -/
def retrievePostComments (posts : List Post) (comments : List Row)
    (t : Int) (strip useMP : Bool) : Except String (List Row) :=
  if useMP then
    match posts.mapM (fun post => retrievePostComment post t strip comments) with
    | Except.error e => Except.error e
    | Except.ok _ => Except.ok comments
  else
    posts.foldlM (fun acc post => retrievePostComment post t strip acc) comments

/-! ### The claims -/

/-- C1: on a finite comment forest of `N` true `Comment` nodes and any
number of placeholder nodes (no unexpected objects), the work-list loop
resolves every placeholder and — taking a threshold every comment clears,
so that the threshold filter removes nothing — emits exactly `N` rows:
once for every complete run of the nondeterministic-removal-order step
relation `Flat` (so regardless of the order in which nodes are removed),
and once for the code's own pop-from-the-end loop `flattenLoop`. -/
theorem c1_flatten_counts_every_comment_once
    (title : String) (t : Int) (strip : Bool) (forest : List Node)
    (hclean : cleanL forest = true) (hall : allAboveL t forest = true) :
    (∀ rows, Relation.ReflTransGen (Flat title t strip) (forest, []) ([], rows) →
      rows.length = countCommentsL forest) ∧
    (∃ rows, flattenLoop title t strip forest [] = Except.ok rows ∧
      rows.length = countCommentsL forest) := by
  constructor
  · intro rows hrun
    have h1 := run_count (forest, ([] : List Row)) rows hrun
    simp only [List.length_nil, Nat.zero_add] at h1
    rw [h1]
    exact countQL_eq_countCommentsL t (sizeL forest) forest le_rfl hall
  · obtain ⟨new, hrun, hlen⟩ :=
      flattenLoop_ok title t strip (sizeL forest) forest le_rfl [] hclean
    refine ⟨new, by simpa using hrun, ?_⟩
    rw [hlen]
    exact countQL_eq_countCommentsL t (sizeL forest) forest le_rfl hall

theorem c1_witness :
    (∀ rows, Relation.ReflTransGen (Flat "P" 5 false)
        ([Node.comment none "hi" 11, Node.more [Node.comment (some "u") "yo" 7]], [])
        ([], rows) →
      rows.length =
        countCommentsL
          [Node.comment none "hi" 11, Node.more [Node.comment (some "u") "yo" 7]]) ∧
    (∃ rows,
      flattenLoop "P" 5 false
          [Node.comment none "hi" 11, Node.more [Node.comment (some "u") "yo" 7]] [] =
        Except.ok rows ∧
      rows.length =
        countCommentsL
          [Node.comment none "hi" 11, Node.more [Node.comment (some "u") "yo" 7]]) :=
  c1_flatten_counts_every_comment_once "P" 5 false
    [Node.comment none "hi" 11, Node.more [Node.comment (some "u") "yo" 7]]
    (by decide) (by decide)

/-- C2 (amended): on every finite-depth forest the loop terminates — no
infinite sequence of loop iterations exists — and every completed run
performs exactly one iteration per node, so each `Comment` is visited
exactly once and each placeholder resolved exactly once.  The claim's
further assertion that the loop survives a placeholder that re-yields
itself is false of the code (see the counterexample): the loop has no
cycle guard. -/
theorem c2_loop_terminates_once_per_node (title : String) (t : Int) (strip : Bool) :
    (¬ ∃ f : Nat → List Node × List Row,
        ∀ k, Flat title t strip (f k) (f (k + 1))) ∧
    (∀ (k : Nat) (forest : List Node) (rows : List Row),
      FlatN title t strip k (forest, []) ([], rows) → k = sizeL forest) :=
  ⟨no_infinite_run title t strip,
   fun k forest rows h => flatN_count k (forest, []) rows h⟩

theorem c2_witness : 2 = sizeL [Node.more [Node.comment none "a" 1]] := by
  refine (c2_loop_terminates_once_per_node "Q" 0 false).2 2
    [Node.more [Node.comment none "a" 1]] [commentRow "Q" false none "a" 1] ?_
  refine FlatN.head 1 _ ([Node.comment none "a" 1], []) _ ?_ ?_
  · exact Flat.resolve [] [] [] [Node.comment none "a" 1]
  · refine FlatN.head 0 _ ([], [commentRow "Q" false none "a" 1]) _ ?_ (FlatN.refl _)
    exact Flat.keep [] [] [] none "a" 1 (by decide)

/-- C2 counterexample: the code does not guard against a placeholder that
(incorrectly) re-yields itself.  With resolution behaviour `cycEnv`
(token 0 resolves to a list containing itself), no number of loop
iterations ever finishes: the claim "no infinite loop even under a cyclic
placeholder" is false of the code. -/
theorem c2_counterexample_cyclic_placeholder_loops_forever :
    ¬ ∃ fuel : Nat,
      (flattenFuel cycEnv "P" 0 true fuel [TNode.more 0] []).isSome = true := by
  rintro ⟨fuel, h⟩
  rw [flattenFuel_cyc fuel] at h
  simp at h

/-- C3: the loop emits a row for a comment of score `s` under threshold
`t` exactly when `s > t` — the test is strict, the threshold itself is
excluded — and the emitted row carries the author, the (optionally
normalized) body and the score. -/
theorem c3_threshold_is_strict (title : String) (t : Int) (strip : Bool)
    (a : Option String) (b : String) (s : Int) (acc : List Row) :
    flattenLoop title t strip [Node.comment a b s] acc =
      Except.ok (acc ++ if t < s then [commentRow title strip a b s] else []) :=
  flattenLoop_one_comment title t strip a b s acc

/-- C4: `strip_newlines` is the newline pass followed by the whitespace
pass (second conjunct, definitional), and its net effect is exactly the
spec-side `collapseRuns`: every run of whitespace/newline characters in
the input collapses to exactly one space (first conjunct). -/
theorem c4_normalizer_collapses_all_whitespace_runs (s : String) :
    strip_newlines s = collapseRuns s ∧
    strip_newlines s = String.mk (subWhitespace (subNewlines s.data)) := by
  constructor
  · unfold strip_newlines collapseRuns
    rw [subWhitespace_subNewlines s.data.length s.data le_rfl]
    rw [collapseRunsList_eq_subWhitespace s.data.length s.data le_rfl]
  · rfl

/-- C5: a post whose comment list is empty contributes exactly one
sentinel row — the post's title with null author, null comment and null
score — appended to the accumulated rows. -/
theorem c5_empty_forest_yields_one_sentinel_row
    (title : String) (t : Int) (strip : Bool) (comments : List Row) :
    retrievePostComment (Post.mk title []) t strip comments =
      Except.ok (comments ++ [sentinelRow title]) := rfl

/-- C6 counterexample: the pre-existence guard of `scrape_subreddit` runs
only when an explicit path is passed.  With `path = None` the
default-named file is opened for writing with no check: here the target
file already exists and the writer nevertheless succeeds and overwrites
its contents, contradicting the claim for that output path. -/
theorem c6_counterexample_default_path_overwrites :
    scrapeSavePhase
        (FS.mk [("python_2020-01-01_00-00-00.csv", [sentinelRow "old"])] [])
        "python" "2020-01-01_00-00-00" none [sentinelRow "new"] =
      Except.ok
        (FS.mk [("python_2020-01-01_00-00-00.csv", [sentinelRow "new"])] []) := by
  rfl

/-- C6 (amended): when an explicit output path is supplied the claim
holds: a pre-existing target (file or directory) makes the run fail with
`FileExistsError` before anything is written, and otherwise the write
succeeds, the target file exists afterwards, and the missing parent
directory chain has been created (pre-existing parent directories are not
an error, the `FileExistsError` of `os.makedirs` being swallowed).  When
no path is supplied, the default-named target is written with no
pre-existence check (see the counterexample). -/
theorem c6_explicit_path_guard (fs : FS) (sub now p : String) (rows : List Row)
    (hrows : rows ≠ []) :
    (pathExists fs p = true →
      scrapeSavePhase fs sub now (some p) rows =
        Except.error "Passed path already exists.") ∧
    (pathExists fs p = false →
      ∃ fs2, scrapeSavePhase fs sub now (some p) rows = Except.ok fs2 ∧
        fs2.files.any (fun q => q.1 == p) = true ∧
        (¬ splitDir p = "" → fs2.dirs.contains (splitDir p) = true)) := by
  constructor
  · intro hex
    simp [scrapeSavePhase, hex]
  · intro hex
    refine ⟨writeOpen (if splitDir p ≠ "" then makedirs fs (splitDir p) else fs) p rows,
      ?_, ?_, ?_⟩
    · simp [scrapeSavePhase, hex, saveComments, List.isEmpty_iff, hrows]
    · simp [writeOpen]
    · intro hdir
      simp only [writeOpen, hdir, ne_eq, not_false_iff, if_pos]
      exact makedirs_contains_self fs (splitDir p)

theorem c6_witness :
    (pathExists (FS.mk [] ["data"]) "data/python.csv" = true →
      scrapeSavePhase (FS.mk [] ["data"]) "python" "T" (some "data/python.csv")
          [sentinelRow "Q"] =
        Except.error "Passed path already exists.") ∧
    (pathExists (FS.mk [] ["data"]) "data/python.csv" = false →
      ∃ fs2, scrapeSavePhase (FS.mk [] ["data"]) "python" "T"
            (some "data/python.csv") [sentinelRow "Q"] = Except.ok fs2 ∧
        fs2.files.any (fun q => q.1 == "data/python.csv") = true ∧
        (¬ splitDir "data/python.csv" = "" →
          fs2.dirs.contains (splitDir "data/python.csv") = true)) :=
  c6_explicit_path_guard (FS.mk [] ["data"]) "python" "T" "data/python.csv"
    [sentinelRow "Q"] (by simp)

/-- C7: whenever the loop removes an object that is neither a `Comment`
nor a `MoreComments` — the removed object is the last element of the work
list — it raises `Exception` with a message naming the unexpected
object's type, aborting the run; the node is never silently skipped.
(The two adjacent string literals of the source concatenate without a
space, which the message reproduces.) -/
theorem c7_unexpected_object_raises (title : String) (t : Int) (strip : Bool)
    (ws : List Node) (ty : String) (acc : List Row) :
    flattenLoop title t strip (ws ++ [Node.unexpected ty]) acc =
      Except.error ("Unexpected object found in comment list." ++
        "Found object of type " ++ ty) := by
  rw [flattenLoop_concat]

/-- C8 counterexample: with `client_id` unset, `_authenticate` prints its
two failure messages but returns normally instead of halting: the
constructor completes with `self.reddit = None`, and the subsequent post
fetch of `scrape_subreddit` crashes with an uncaught `AttributeError`
stack trace — the run does continue into post fetching unauthenticated,
contradicting the claim. -/
theorem c8_counterexample_missing_credentials_do_not_halt :
    (authenticate (Env.mk none (some "s") (some "u"))).2 = none ∧
    (authenticate (Env.mk none (some "s") (some "u"))).1 =
      "Authenticating credentials..." :: authFailLines ∧
    getPosts (authenticate (Env.mk none (some "s") (some "u"))).2
        (fun _ _ => []) "python" =
      Except.error "AttributeError: 'NoneType' object has no attribute 'subreddit'" :=
  ⟨rfl, rfl, rfl⟩

/-- C8 (amended): if any of the three credential secrets is absent, a
clear human-readable message is printed — but the process does not halt:
`_authenticate` swallows the `KeyError`, leaves the client unset, and a
later fetch attempt crashes with an uncaught `AttributeError` (a stack
trace), rather than stopping before it. -/
theorem c8_missing_credentials_report_but_no_halt (env : Env)
    (fetch : Reddit → String → List Post) (sub : String)
    (hmiss : env.client_id = none ∨ env.client_secret = none ∨
      env.user_agent = none) :
    authenticate env = ("Authenticating credentials..." :: authFailLines, none) ∧
    getPosts (authenticate env).2 fetch sub =
      Except.error "AttributeError: 'NoneType' object has no attribute 'subreddit'" := by
  rcases env with ⟨ci, cs, ua⟩
  have hauth : authenticate (Env.mk ci cs ua) =
      ("Authenticating credentials..." :: authFailLines, none) := by
    cases ci <;> cases cs <;> cases ua <;> simp [authenticate] <;> simp at hmiss
  refine ⟨hauth, ?_⟩
  rw [hauth]
  rfl

theorem c8_witness :
    authenticate (Env.mk (some "i") none (some "u")) =
      ("Authenticating credentials..." :: authFailLines, none) ∧
    getPosts (authenticate (Env.mk (some "i") none (some "u"))).2
        (fun _ _ => []) "python" =
      Except.error "AttributeError: 'NoneType' object has no attribute 'subreddit'" :=
  c8_missing_credentials_report_but_no_halt (Env.mk (some "i") none (some "u"))
    (fun _ _ => []) "python" (Or.inr (Or.inl rfl))

/-- C9: the claim is right about the intended behaviour and the code is
wrong.  `Pool.starmap` runs `self._retrieve_post_comment` in worker
processes on pickled copies of `self`; every row a worker appends goes to
its copy and is lost, so parallel mode leaves the parent's accumulated
collection unchanged (here: empty), while sequential mode collects the
qualifying comment — the two modes do not yield the same multiset of
rows. -/
theorem c9_parallel_mode_loses_all_rows :
    retrievePostComments
        [Post.mk "P" [Node.comment (some "u") "hello world" 10]] [] 5 false true =
      Except.ok [] ∧
    retrievePostComments
        [Post.mk "P" [Node.comment (some "u") "hello world" 10]] [] 5 false false =
      Except.ok [Row.mk "P" (some "u") (some "hello world") (some 10)] := by
  have h1 : retrievePostComment
      (Post.mk "P" [Node.comment (some "u") "hello world" 10]) 5 false [] =
      Except.ok [Row.mk "P" (some "u") (some "hello world") (some 10)] := by
    have h0 : retrievePostComment
        (Post.mk "P" [Node.comment (some "u") "hello world" 10]) 5 false [] =
        flattenLoop "P" 5 false [Node.comment (some "u") "hello world" 10] [] := rfl
    rw [h0, flattenLoop_one_comment]
    norm_num [commentRow]
  have hmap : List.mapM.loop (fun post => retrievePostComment post 5 false [])
      [Post.mk "P" [Node.comment (some "u") "hello world" 10]] [] =
      Except.ok [[Row.mk "P" (some "u") (some "hello world") (some 10)]] := by
    rw [show List.mapM.loop (fun post => retrievePostComment post 5 false [])
          [Post.mk "P" [Node.comment (some "u") "hello world" 10]] [] =
        (retrievePostComment
            (Post.mk "P" [Node.comment (some "u") "hello world" 10]) 5 false [] >>=
          fun b => List.mapM.loop
            (fun post => retrievePostComment post 5 false []) [] [b]) from rfl]
    rw [h1]
    rfl
  constructor
  · simp [retrievePostComments, hmap]
  · simp [retrievePostComments, List.foldlM_cons, List.foldlM_nil, h1]

/-- C10: the sentinel row appears exactly when the initial top-level
comment list is empty (second conjunct); a non-empty forest with no
qualifying comment — placeholders all resolving to nothing, or every
comment at or below the threshold — contributes no row at all: no
sentinel and no comment row (first conjunct). -/
theorem c10_sentinel_only_for_empty_initial_list
    (title : String) (t : Int) (strip : Bool) (comments : List Row)
    (nodes : List Node) (hne : nodes ≠ []) (hclean : cleanL nodes = true)
    (hq : countQL t nodes = 0) :
    retrievePostComment (Post.mk title nodes) t strip comments =
      Except.ok comments ∧
    retrievePostComment (Post.mk title []) t strip comments =
      Except.ok (comments ++ [sentinelRow title]) := by
  refine ⟨?_, rfl⟩
  have hie : ¬ ((Post.mk title nodes).commentList.isEmpty = true) := by
    simpa [List.isEmpty_iff] using hne
  unfold retrievePostComment
  rw [if_neg hie]
  obtain ⟨new, hrun, hlen⟩ :=
    flattenLoop_ok title t strip (sizeL nodes) nodes le_rfl comments hclean
  rw [hq] at hlen
  have hnil : new = [] := List.length_eq_zero.mp hlen
  subst hnil
  simpa using hrun

theorem c10_witness :
    retrievePostComment (Post.mk "Q" [Node.more [], Node.comment none "low" 1])
        5 false [sentinelRow "X"] =
      Except.ok [sentinelRow "X"] ∧
    retrievePostComment (Post.mk "Q" []) 5 false [sentinelRow "X"] =
      Except.ok ([sentinelRow "X"] ++ [sentinelRow "Q"]) :=
  c10_sentinel_only_for_empty_initial_list "Q" 5 false [sentinelRow "X"]
    [Node.more [], Node.comment none "low" 1] (by simp) (by decide) (by decide)

end RedditCommentScraper
